import Mathlib

/-
Verification of `Example_Euclidean_uniform_tilings.py` (pywonderland,
`src/hyperbolic-tilings/`).

Points are 3-component real vectors (`V`).  The numeric code is embedded over
`ℝ`; where the floating-point behaviour of numpy matters (NaN from
`np.sqrt` of a negative number, inf/NaN from division by zero) we model a
float result as `Option ℝ`, with `none` standing for a non-finite value
(NaN/inf).  numpy never raises an exception in those places, it returns the
non-finite value and emits a runtime warning, so the embedded functions are
total.
-/

open scoped Matrix

/-- A point / vector with 3 real components, as used throughout the file. -/
abbrev V : Type := Fin 3 → ℝ

/-- `np.dot` on 3-vectors. -/
noncomputable def dot3 (u v : V) : ℝ := u 0 * v 0 + u 1 * v 1 + u 2 * v 2

/-- The inner function `reflect` of `EuclideanUniformTiling.get_reflections`:
`v - 2 * (np.dot(v, normal) + dist) * normal`, elementwise. -/
noncomputable def reflect (v normal : V) (dist : ℝ) : V :=
  fun k => v k - 2 * (dot3 v normal + dist) * normal k

/-- `EuclideanUniformTiling.get_reflections`: one affine reflection operator per
mirror row, paired with the corresponding entry of `init_dist` (the python
`zip(mirrors, init_dist)`), indexed by the mirror index. -/
noncomputable def get_reflections (mirrors : Matrix (Fin 3) (Fin 3) ℝ)
    (init_dist : Fin 3 → ℝ) : Fin 3 → V → V :=
  fun i v => reflect v (mirrors i) (init_dist i)

/-- `C = -np.cos(np.pi / np.asarray(cox_mat, dtype=np.float))`, elementwise
(including the diagonal, as the code computes it). -/
noncomputable def coxC (cox : Matrix (Fin 3) (Fin 3) ℕ) : Matrix (Fin 3) (Fin 3) ℝ :=
  Matrix.of fun i j => -Real.cos (Real.pi / (cox i j : ℝ))

/-- `EuclideanUniformTiling.get_mirrors`, translated line by line: starting from
`M = np.zeros_like(C)`, the entries `M[0,0] = 1`, `M[1,0] = C[1,0]`,
`M[1,1] = sqrt(1 - M[1,0]^2)`, `M[2,0] = C[2,0]`,
`M[2,1] = (C[2,1] - M[2,0]*M[1,0]) / M[1,1]`,
`M[2,2] = sqrt(abs(M[2,0]^2 + M[2,1]^2 - 1))` are filled in; every other entry
stays `0`.  (Over the reals the two radicands that the code feeds to
`np.sqrt` are handled by `Real.sqrt`; see `solveMirrorsF` below for the
float/NaN model of the same lines.) -/
noncomputable def get_mirrors (cox : Matrix (Fin 3) (Fin 3) ℕ) :
    Matrix (Fin 3) (Fin 3) ℝ :=
  let C := coxC cox
  let m10 := C 1 0
  let m11 := Real.sqrt (1 - m10 * m10)
  let m20 := C 2 0
  let m21 := (C 2 1 - m20 * m10) / m11
  let m22 := Real.sqrt |m20 * m20 + m21 * m21 - 1|
  !![1, 0, 0; m10, m11, 0; m20, m21, m22]

/-- The matrix `C` as the specification describes it: `-cos(π/coxMatrix[i][j])`
off the diagonal and exactly `1` on the diagonal.  (Spec wording, for the
refinement statement of claim C1.) -/
noncomputable def specC (cox : Matrix (Fin 3) (Fin 3) ℕ) : Matrix (Fin 3) (Fin 3) ℝ :=
  Matrix.of fun i j => if i = j then 1 else -Real.cos (Real.pi / (cox i j : ℝ))

/-- The mirror matrix exactly as the specification words it (claim C1):
`M[0] = (1,0,0)`; `M[1][0] = C[1][0]`; `M[1][1] = sqrt(1 - M[1][0]^2)`;
`M[2][0] = C[2][0]`; `M[2][1] = (C[2][1] - M[2][0]*M[1][0]) / M[1][1]`;
`M[2][2] = sqrt(|M[2][0]^2 + M[2][1]^2 - 1|)`, all other entries zero, the
absolute value taken in the last radicand and nowhere else. -/
noncomputable def mirrorSpecM (cox : Matrix (Fin 3) (Fin 3) ℕ) :
    Matrix (Fin 3) (Fin 3) ℝ :=
  let C := specC cox
  Matrix.of fun i j =>
    if i = 0 then (if j = 0 then 1 else 0)
    else if i = 1 then
      (if j = 0 then C 1 0
       else if j = 1 then Real.sqrt (1 - C 1 0 * C 1 0)
       else 0)
    else
      (if j = 0 then C 2 0
       else if j = 1 then (C 2 1 - C 2 0 * C 1 0) / Real.sqrt (1 - C 1 0 * C 1 0)
       else Real.sqrt |C 2 0 * C 2 0 +
          ((C 2 1 - C 2 0 * C 1 0) / Real.sqrt (1 - C 1 0 * C 1 0)) *
          ((C 2 1 - C 2 0 * C 1 0) / Real.sqrt (1 - C 1 0 * C 1 0)) - 1|)

/-- `np.sqrt` on a float: `none` models the NaN produced (with a runtime
warning, not an exception) when the argument is negative. -/
noncomputable def npSqrt (x : ℝ) : Option ℝ :=
  if x < 0 then none else some (Real.sqrt x)

/-- Float division `x / y`: `none` models the non-finite value (inf or NaN,
produced with a runtime warning, not an exception) when `y = 0`. -/
noncomputable def npDiv (x y : ℝ) : Option ℝ :=
  if y = 0 then none else some (x / y)

/-- The float model of the assignments in `get_mirrors` after `C` has been
computed (lines `M[0,0] = 1` … `M[2,2] = ...` of the source), with `none`
standing for a non-finite float entry.  NaN propagates through the arithmetic
of rows below, exactly as in numpy; no code path raises. -/
noncomputable def solveMirrorsF (C : Matrix (Fin 3) (Fin 3) ℝ) :
    Matrix (Fin 3) (Fin 3) (Option ℝ) :=
  let m10 : Option ℝ := some (C 1 0)
  let m11 : Option ℝ := npSqrt (1 - C 1 0 * C 1 0)
  let m20 : Option ℝ := some (C 2 0)
  let m21 : Option ℝ := m11.bind fun d => npDiv (C 2 1 - C 2 0 * C 1 0) d
  let m22 : Option ℝ := m21.bind fun x => npSqrt |C 2 0 * C 2 0 + x * x - 1|
  Matrix.of fun i j =>
    if i = 0 then (if j = 0 then some 1 else some 0)
    else if i = 1 then
      (if j = 0 then m10 else if j = 1 then m11 else some 0)
    else
      (if j = 0 then m20 else if j = 1 then m21 else m22)

/-- The float behaviour of `get_mirrors` as a whole: compute `C` from the
Coxeter matrix, then run the assignment block. -/
noncomputable def get_mirrorsF (cox : Matrix (Fin 3) (Fin 3) ℕ) :
    Matrix (Fin 3) (Fin 3) (Option ℝ) :=
  solveMirrorsF (coxC cox)

/-- `EuclideanUniformTiling.project_to_plane`:
`np.array(v[:2]) / v[-1]` — both components divided by the third coordinate,
with non-finite results (`none`) when the third coordinate is zero.  The
function is total: numpy emits a warning on division by zero but returns. -/
noncomputable def project_to_plane (v : V) : Option ℝ × Option ℝ :=
  (npDiv (v 0) (v 2), npDiv (v 1) (v 2))

/-- The `both active` loop body of `get_fundamental_faces`:
`for _ in range(n): f0.append(P); f0.append(Q); P = rj(ri(P)); Q = rj(ri(Q))`
with `Q` initialised to `rj(P)` by the caller. -/
noncomputable def bothActiveLoop (ri rj : V → V) : ℕ → V → V → List V
  | 0, _, _ => []
  | n + 1, P, Q => P :: Q :: bothActiveLoop ri rj n (rj (ri P)) (rj (ri Q))

/-- The single-active-mirror loop of `get_fundamental_faces`:
`for _ in range(n): f0.append(P); P = g(P)` where `g` is the composed
rotation (`rj ∘ ri` in the `active[i]` branch, `ri ∘ rj` in the other). -/
noncomputable def cycleLoop (g : V → V) : ℕ → V → List V
  | 0, _ => []
  | n + 1, P => P :: cycleLoop g n (g P)

/-- The per-pair case analysis of `get_fundamental_faces` for the pair `(i, j)`
(the loop body for one element of `combinations(range(3), 2)`); `none` models
the `continue` branch that appends no face. -/
noncomputable def pairFace (cox : Matrix (Fin 3) (Fin 3) ℕ) (active : Fin 3 → Bool)
    (refl : Fin 3 → V → V) (init_v : V) (i j : Fin 3) : Option (List V) :=
  if active i && active j then
    some (bothActiveLoop (refl i) (refl j) (cox i j) init_v (refl j init_v))
  else if active i && decide (2 < cox i j) then
    some (cycleLoop (fun p => refl j (refl i p)) (cox i j) init_v)
  else if active j && decide (2 < cox i j) then
    some (cycleLoop (fun p => refl i (refl j p)) (cox i j) init_v)
  else
    none

/-- The instance data of `EuclideanUniformTiling` that
`get_fundamental_faces` reads: `self.cox_mat`, `self.active`,
`self.reflections` and `self.init_v`. -/
structure Tiling where
  cox : Matrix (Fin 3) (Fin 3) ℕ
  active : Fin 3 → Bool
  refl : Fin 3 → V → V
  init_v : V

/-- The faces appended by one call of `get_fundamental_faces`, in the order of
`combinations(range(3), 2)`, i.e. the pairs `(0,1)`, `(0,2)`, `(1,2)`. -/
noncomputable def builtFaces (T : Tiling) : List (List V) :=
  ([((0 : Fin 3), (1 : Fin 3)), (0, 2), (1, 2)]).filterMap fun p =>
    pairFace T.cox T.active T.refl T.init_v p.1 p.2

/-- One call of the method `get_fundamental_faces`, as a transformer of the
mutable attribute `self.fundamental_faces`: each produced face is appended to
the stored list (the method never clears nor checks the list). -/
noncomputable def get_fundamental_faces (T : Tiling) (faces : List (List V)) :
    List (List V) :=
  faces ++ builtFaces T

/-- The word-acceptance automaton interface consumed by `traverse`.
Modelled from the spec: the module `automata` is not part of the sources
here; per spec section 6 the automaton is a WordDFA over the generator symbols
`{0,1,2}` with a distinguished start state and a possibly partial transition
map from each state. -/
structure WordDFA (σ : Type) where
  start : σ
  trans : σ → Fin 3 → Option σ

/-- `state.all_transitions()`: the enabled `(symbol, targetState)` pairs of a
state, in symbol order.  Modelled from the spec (section 6): a sequence of
pairs `(generatorSymbol, nextState)` with `generatorSymbol ∈ {0,1,2}`. -/
def allTransitions {σ : Type} (A : WordDFA σ) (s : σ) : List (Fin 3 × σ) :=
  (List.finRange 3).filterMap fun a => (A.trans s a).map fun t => (a, t)

/-- A record of the breadth-first traversal: the python tuple
`[state, word, steps, shape]`. -/
structure TRec (σ : Type) where
  state : σ
  word : List (Fin 3)
  steps : ℕ
  shape : List V

/-- The records enqueued from `r` when `r.steps < depth`:
`(target, word + (symbol,), steps + 1, [reflections[symbol](p) for p in shape])`
for every enabled transition. -/
noncomputable def childRecs {σ : Type} (A : WordDFA σ) (refl : Fin 3 → V → V)
    (r : TRec σ) : List (TRec σ) :=
  (allTransitions A r.state).map fun p =>
    ⟨p.2, r.word ++ [p.1], r.steps + 1, r.shape.map (refl p.1)⟩

/-- Termination measure for the breadth-first queue: each record still in the
queue can generate at most 3 successors per remaining level. -/
def qweight {σ : Type} (depth : ℕ) (q : List (TRec σ)) : ℕ :=
  (q.map fun r => 4 ^ (depth + 1 - r.steps)).sum

/-- The `while queue:` loop of `EuclideanUniformTiling.traverse`: dequeue a
record, yield it, and if `steps < depth` enqueue its successors at the back
(FIFO discipline). -/
noncomputable def traverseBFS {σ : Type} (A : WordDFA σ) (refl : Fin 3 → V → V)
    (depth : ℕ) : List (TRec σ) → List (TRec σ)
  | [] => []
  | r :: q =>
      r :: traverseBFS A refl depth
        (q ++ if r.steps < depth then childRecs A refl r else [])
termination_by q => qweight depth q
decreasing_by
  have hsteps : ∀ c ∈ childRecs A refl r, c.steps = r.steps + 1 := by
    intro c hc
    simp only [childRecs, List.mem_map] at hc
    obtain ⟨p, _hp, rfl⟩ := hc
    rfl
  have hlen : (childRecs A refl r).length ≤ 3 := by
    have h2 : (allTransitions A r.state).length ≤ (List.finRange 3).length :=
      List.length_filterMap_le _ _
    simp only [childRecs, List.length_map]
    simpa using h2
  have hS : ((childRecs A refl r).map fun c => 4 ^ (depth + 1 - c.steps)).sum
      ≤ 3 * 4 ^ (depth - r.steps) := by
    have h1 : ((childRecs A refl r).map fun c => 4 ^ (depth + 1 - c.steps)).sum
        ≤ ((childRecs A refl r).map fun c => 4 ^ (depth + 1 - c.steps)).length
            • 4 ^ (depth - r.steps) := by
      apply List.sum_le_card_nsmul
      intro x hx
      simp only [List.mem_map] at hx
      obtain ⟨c, hc, rfl⟩ := hx
      rw [hsteps c hc]
      have he : depth + 1 - (r.steps + 1) = depth - r.steps := by omega
      rw [he]
    rw [List.length_map, smul_eq_mul] at h1
    exact h1.trans (mul_le_mul_right' hlen _)
  simp only [qweight]
  by_cases hlt : r.steps < depth
  · rw [dif_pos hlt]
    simp only [List.map_append, List.sum_append, List.map_cons, List.sum_cons]
    have hY : 0 < 4 ^ (depth - r.steps) := pow_pos (by norm_num) _
    have hX : 4 ^ (depth + 1 - r.steps) = 4 * 4 ^ (depth - r.steps) := by
      have h : depth + 1 - r.steps = (depth - r.steps) + 1 := by omega
      rw [h, pow_succ, Nat.mul_comm]
    omega
  · rw [dif_neg hlt]
    simp only [List.append_nil, List.map_cons, List.sum_cons]
    have hX : 0 < 4 ^ (depth + 1 - r.steps) := pow_pos (by norm_num) _
    omega

/-- `EuclideanUniformTiling.traverse(depth, domain)`: the queue starts with
`[self.dfa.start, (), 0, domain]` and the loop yields records in FIFO order. -/
noncomputable def EuclideanUniformTiling.traverse {σ : Type} (A : WordDFA σ) (refl : Fin 3 → V → V)
    (depth : ℕ) (domain : List V) : List (TRec σ) :=
  traverseBFS A refl depth [⟨A.start, [], 0, domain⟩]

/-- The action of a word on a seed polygon: apply the reflection operator of
each symbol, in order, pointwise to every vertex. -/
noncomputable def applyWord (refl : Fin 3 → V → V) (w : List (Fin 3))
    (shape : List V) : List V :=
  w.foldl (fun sh a => sh.map (refl a)) shape

/-- The cairo operations issued per face by `EuclideanUniformTiling.draw`
that we model: path construction, the conditional `fill_preserve`, and the
final `stroke`. -/
inductive DrawOp where
  | moveTo : (Option ℝ × Option ℝ) → DrawOp
  | lineTo : (Option ℝ × Option ℝ) → DrawOp
  | fillPreserve : ℕ → DrawOp
  | stroke : ℕ → DrawOp

/-- The default value of the keyword argument `face_colors` of `draw`: a
caller who omits the argument gets this list, not `None`. -/
def defaultFaceColors : Option (List ℕ) := some [0x477984, 0xEEAA4D, 0xC03C44]

/-- The operations `draw` issues for the `i`-th face with projected vertex
list `shape`: move to the first vertex, line to the remaining ones and back to
the first, then `fill_preserve` with `face_colors[i]` exactly when
`face_colors is not None`, then `stroke` with the edge color.  (`getD i 0`
stands for the python indexing `face_colors[i]`.) -/
def drawFaceOps (face_colors : Option (List ℕ)) (edge_color : ℕ)
    (i : ℕ) (shape : List (Option ℝ × Option ℝ)) : List DrawOp :=
  (match shape with
   | [] => []
   | p :: rest => DrawOp.moveTo p :: (rest.map DrawOp.lineTo) ++ [DrawOp.lineTo p])
  ++ (match face_colors with
      | some cs => [DrawOp.fillPreserve (cs.getD i 0)]
      | none => [])
  ++ [DrawOp.stroke edge_color]

/-- Whether an operation is the conditional `fill_preserve` call. -/
def isFillOp : DrawOp → Bool
  | DrawOp.fillPreserve _ => true
  | _ => false

/-- Whether a face drawn with the given operations gets a fill. -/
def isFilled (ops : List DrawOp) : Bool :=
  ops.any isFillOp

/-- The Coxeter matrix of the `(3, 3, 3)` triangle group (tiling `333` of
`main`). -/
def cox333 : Matrix (Fin 3) (Fin 3) ℕ := !![1, 3, 3; 3, 1, 3; 3, 3, 1]

/-- The Coxeter matrix of the `(2, 4, 4)` triangle group (tiling `244` of
`main`). -/
def cox244 : Matrix (Fin 3) (Fin 3) ℕ := !![1, 2, 4; 2, 1, 4; 4, 4, 1]

/-- The reflection operators of the `(2, 4, 4)` tiling with
`init_dist = (1, 1, 1)` (the `244-111` example of `main`). -/
noncomputable def refl244 : Fin 3 → V → V :=
  get_reflections (get_mirrors cox244) ![1, 1, 1]

/-- A concrete tiling instance: the `(3, 3, 3)` Coxeter matrix with
`init_dist = (1, 0, 0)` (the `333-100` example of `main`), so only mirror 0
is active. -/
noncomputable def T333 : Tiling where
  cox := cox333
  active := ![true, false, false]
  refl := get_reflections (get_mirrors cox333) ![1, 0, 0]
  init_v := ![0, 0, 1]

/-- A hypothetical inner-product matrix with `C[1][0] = 2`, outside the range
`[-1, 1]` that `-cos` can produce: the input at which the claimed
negative-radicand error path of the mirror solve would be exercised. -/
noncomputable def CnegRad : Matrix (Fin 3) (Fin 3) ℝ := !![1, 0, 0; 2, 1, 0; 0, 0, 1]

/-
Theorems.  Each claim of the specification review is settled by exactly one
theorem below (plus, where needed, a counterexample theorem and a witness
theorem); shared helper lemmas come first.
-/

/-- In the pipeline of `get_mirrors` the radicand `1 - C[1,0]^2` of the first
square root is never negative, because `C[1,0] = -cos(π/m)` lies in `[-1, 1]`:
the error case that the specification describes for this radicand is
unreachable from a Coxeter matrix. -/
theorem coxC_radicand_nonneg (cox : Matrix (Fin 3) (Fin 3) ℕ) :
    0 ≤ 1 - coxC cox 1 0 * coxC cox 1 0 := by
  have h1 : -1 ≤ Real.cos (Real.pi / (cox 1 0 : ℝ)) := Real.neg_one_le_cos _
  have h2 : Real.cos (Real.pi / (cox 1 0 : ℝ)) ≤ 1 := Real.cos_le_one _
  simp only [coxC, Matrix.of_apply]
  nlinarith

/-- C1: for every Coxeter matrix the mirror solver returns exactly the
lower-triangular matrix described by the specification — `M[0] = (1,0,0)`,
`M[1][0] = C[1][0]`, `M[1][1] = sqrt(1 - M[1][0]^2)`, `M[2][0] = C[2][0]`,
`M[2][1] = (C[2][1] - M[2][0]*M[1][0]) / M[1][1]`,
`M[2][2] = sqrt(|M[2][0]^2 + M[2][1]^2 - 1|)`, with all other entries zero
(the absolute value appearing in the last radicand and nowhere else, as in
`mirrorSpecM`). -/
theorem get_mirrors_correct (cox : Matrix (Fin 3) (Fin 3) ℕ) :
    get_mirrors cox = mirrorSpecM cox
  ∧ get_mirrors cox 0 0 = 1
  ∧ get_mirrors cox 0 1 = 0
  ∧ get_mirrors cox 0 2 = 0
  ∧ get_mirrors cox 1 2 = 0 := by
  refine ⟨?_, by simp [get_mirrors], by simp [get_mirrors], by simp [get_mirrors],
    by simp [get_mirrors]⟩
  ext i j
  fin_cases i <;> fin_cases j <;>
    simp [get_mirrors, mirrorSpecM, specC, coxC]

/-- C4: the reflection operator built for mirror `i` maps `v` to exactly
`v - 2 * (dot(v, normal) + dist) * normal`, componentwise; it is a total pure
function of its point argument (no partiality appears in the type). -/
theorem get_reflections_formula (mirrors : Matrix (Fin 3) (Fin 3) ℝ)
    (init_dist : Fin 3 → ℝ) (i : Fin 3) (v : V) (k : Fin 3) :
    get_reflections mirrors init_dist i v k
      = v k - 2 * (dot3 v (mirrors i) + init_dist i) * mirrors i k := rfl

/-- Involution of a single affine reflection across a unit-normal mirror. -/
theorem reflect_involution (n : V) (d : ℝ) (v : V) (h : dot3 n n = 1) :
    reflect (reflect v n d) n d = v := by
  have h' : n 0 * n 0 + n 1 * n 1 + n 2 * n 2 = 1 := by simpa [dot3] using h
  funext k
  simp only [reflect, dot3]
  linear_combination (4 * (v 0 * n 0 + v 1 * n 1 + v 2 * n 2 + d) * n k) * h'

/-- C5: each reflection operator built from a unit-length row of the solved
mirror matrix and its distance is an involution: `R(R(v)) = v`. -/
theorem reflection_involution (cox : Matrix (Fin 3) (Fin 3) ℕ) (d : Fin 3 → ℝ)
    (i : Fin 3) (v : V)
    (h : dot3 (get_mirrors cox i) (get_mirrors cox i) = 1) :
    get_reflections (get_mirrors cox) d i
      (get_reflections (get_mirrors cox) d i v) = v :=
  reflect_involution (get_mirrors cox i) (d i) v h

/-- Witness for C5: mirror row 0 of the `(3,3,3)` matrix is the unit vector
`(1,0,0)` and the corresponding operator squares to the identity on a
concrete point. -/
theorem reflection_involution_witness :
    dot3 (get_mirrors cox333 0) (get_mirrors cox333 0) = 1
  ∧ get_reflections (get_mirrors cox333) ![1, 0, 0] 0
      (get_reflections (get_mirrors cox333) ![1, 0, 0] 0 ![5, 6, 7]) = ![5, 6, 7] := by
  have hu : dot3 (get_mirrors cox333 0) (get_mirrors cox333 0) = 1 := by
    simp [get_mirrors, dot3]
  exact ⟨hu, reflection_involution cox333 ![1, 0, 0] 0 ![5, 6, 7] hu⟩

/-- C6 (amended): when the radicand `1 - M[1][0]^2` is negative, `np.sqrt`
produces NaN (with a runtime warning) and the assignment block of the mirror
solve completes normally, returning a matrix whose entries `(1,1)`, `(2,1)`
and `(2,2)` are non-finite; no exception is raised anywhere in
`get_mirrors`. -/
theorem solveMirrors_nan_on_negative_radicand (C : Matrix (Fin 3) (Fin 3) ℝ)
    (h : 1 - C 1 0 * C 1 0 < 0) :
    solveMirrorsF C 1 1 = none
  ∧ solveMirrorsF C 2 1 = none
  ∧ solveMirrorsF C 2 2 = none := by
  have h11 : npSqrt (1 - C 1 0 * C 1 0) = none := by simp [npSqrt, h]
  refine ⟨?_, ?_, ?_⟩ <;> simp [solveMirrorsF, h11]

/-- C6 counterexample: at an inner-product matrix with `C[1][0] = 2` the
radicand is `-3 < 0`, yet the mirror solve returns a result — a matrix whose
`(1,1)` entry is the non-finite float `none` — instead of raising any error:
the claim that the derivation "fails by raising a NumericError (rather than
returning a result containing an invalid value)" is false of the code, whose
`M[1,1] = np.sqrt(1 - M[1,0]*M[1,0])` has no check and no raise. -/
theorem solveMirrors_negative_radicand_counterexample :
    1 - CnegRad 1 0 * CnegRad 1 0 < 0
  ∧ solveMirrorsF CnegRad 1 1 = none
  ∧ solveMirrorsF CnegRad 0 0 = some 1 := by
  have hC : CnegRad 1 0 = 2 := by simp [CnegRad]
  have h : 1 - CnegRad 1 0 * CnegRad 1 0 < 0 := by rw [hC]; norm_num
  have h11 : npSqrt (1 - CnegRad 1 0 * CnegRad 1 0) = none := by simp [npSqrt, h]
  exact ⟨h, by simp [solveMirrorsF, h11], by simp [solveMirrorsF]⟩

/-- Witness for the amended C6 theorem at the concrete matrix `CnegRad`. -/
theorem solveMirrors_nan_witness :
    (1 - CnegRad 1 0 * CnegRad 1 0 < 0)
  ∧ (solveMirrorsF CnegRad 1 1 = none
     ∧ solveMirrorsF CnegRad 2 1 = none
     ∧ solveMirrorsF CnegRad 2 2 = none) := by
  have hC : CnegRad 1 0 = 2 := by simp [CnegRad]
  have h : 1 - CnegRad 1 0 * CnegRad 1 0 < 0 := by rw [hC]; norm_num
  exact ⟨h, solveMirrors_nan_on_negative_radicand CnegRad h⟩

/-- C7 (amended): `project_to_plane` divides the first two components by the
third when the latter is nonzero; when the third component is zero it still
returns — a pair of non-finite values — rather than raising anything. -/
theorem project_to_plane_spec (v : V) :
    (v 2 ≠ 0 → project_to_plane v = (some (v 0 / v 2), some (v 1 / v 2)))
  ∧ (v 2 = 0 → project_to_plane v = (none, none)) := by
  constructor
  · intro h
    simp [project_to_plane, npDiv, h]
  · intro h
    simp [project_to_plane, npDiv, h]

/-- C7 counterexample: at `v = (1, 2, 0)` the third component is zero and
`project_to_plane` returns the pair of non-finite values `(none, none)`
(numpy divides by zero with a warning): the function yields a value and does
not fail, contradicting the claim that it "fails by raising a NumericError
instead of returning a value". -/
theorem project_to_plane_zero_counterexample :
    (![1, 2, 0] : V) 2 = 0 ∧ project_to_plane ![1, 2, 0] = (none, none) := by
  have h : (![1, 2, 0] : V) 2 = 0 := by norm_num
  exact ⟨h, by simp [project_to_plane, npDiv, h]⟩

/-- Witness for the amended C7 theorem: both branches at concrete points. -/
theorem project_to_plane_witness :
    project_to_plane ![3, 4, 2] = (some (3 / 2), some (4 / 2))
  ∧ project_to_plane ![5, 6, 0] = (none, none) := by
  have h1 : (![3, 4, 2] : V) 2 ≠ 0 := by norm_num
  have h2 : (![5, 6, 0] : V) 2 = 0 := by norm_num
  constructor
  · have := (project_to_plane_spec ![3, 4, 2]).1 h1
    rw [this]
    norm_num
  · exact (project_to_plane_spec ![5, 6, 0]).2 h2

/-- Mapping `lineTo` over a list of points never produces a fill operation. -/
theorem lineTo_map_no_fill (l : List (Option ℝ × Option ℝ)) :
    (l.map DrawOp.lineTo).any isFillOp = false := by
  induction l with
  | nil => rfl
  | cons p rest ih => simp [isFillOp, ih]

/-- C8 (amended): a face receives a fill exactly when the `face_colors`
argument is not `None`; since the python default value of the parameter is
the list `[0x477984, 0xEEAA4D, 0xC03C44]`, a caller who omits the argument
gets filled faces — faces are stroke-only only when `face_colors=None` is
passed explicitly. -/
theorem draw_fill_iff_color_list (cs : List ℕ) (edge i : ℕ)
    (shape : List (Option ℝ × Option ℝ)) :
    isFilled (drawFaceOps (some cs) edge i shape) = true
  ∧ isFilled (drawFaceOps none edge i shape) = false
  ∧ defaultFaceColors = some [0x477984, 0xEEAA4D, 0xC03C44] := by
  refine ⟨?_, ?_, rfl⟩ <;>
    cases shape <;>
      simp [isFilled, drawFaceOps, isFillOp, lineTo_map_no_fill]

/-- C8 counterexample: rendering with `face_colors` omitted uses the python
default (a real color list, not `None`), and the face IS filled — the claim
that an omitted fill color list yields unfilled stroke-only faces is false. -/
theorem draw_default_fills_counterexample :
    defaultFaceColors ≠ none
  ∧ isFilled (drawFaceOps defaultFaceColors 0x313E4A 0 [(some 0, some 0)]) = true := by
  constructor
  · simp [defaultFaceColors]
  · rfl

/-- C9 (amended): `get_fundamental_faces` does not cache: every call appends
a freshly built copy of every qualifying face to the stored list, so building
a second time (as a second `draw` on the same instance does) doubles the
stored face list instead of leaving it unchanged. -/
theorem get_fundamental_faces_appends (T : Tiling) (faces : List (List V)) :
    get_fundamental_faces T faces = faces ++ builtFaces T
  ∧ (get_fundamental_faces T (get_fundamental_faces T [])).length
      = 2 * (get_fundamental_faces T []).length := by
  refine ⟨rfl, ?_⟩
  simp [get_fundamental_faces]
  omega

/-- C9 counterexample: on the `333-100` tiling instance the first build
stores 2 fundamental faces and a second build leaves 4, so the stored list
after the second build differs from the list after the first — the faces are
not cached and are duplicated by a repeated build. -/
theorem faces_rebuilt_counterexample :
    (get_fundamental_faces T333 []).length = 2
  ∧ (get_fundamental_faces T333 (get_fundamental_faces T333 [])).length = 4
  ∧ get_fundamental_faces T333 (get_fundamental_faces T333 [])
      ≠ get_fundamental_faces T333 [] := by
  have hb : (builtFaces T333).length = 2 := by
    simp [builtFaces, T333, pairFace, cox333]
  refine ⟨?_, ?_, ?_⟩
  · simp [get_fundamental_faces, hb]
  · simp [get_fundamental_faces, hb]
  · intro h
    have := congrArg List.length h
    simp [get_fundamental_faces, hb] at this

/-- The `both active` loop appends two vertices per iteration: the face has
exactly `2 * n` vertices. -/
theorem bothActiveLoop_length (ri rj : V → V) :
    ∀ (n : ℕ) (P Q : V), (bothActiveLoop ri rj n P Q).length = 2 * n := by
  intro n
  induction n with
  | zero => intro P Q; rfl
  | succ m ih =>
      intro P Q
      simp only [bothActiveLoop, List.length_cons, ih]
      omega

/-- The second vertex appended by the `both active` loop is `Q`. -/
theorem bothActiveLoop_second (ri rj : V → V) (m : ℕ) (P Q : V) :
    (bothActiveLoop ri rj (m + 1) P Q)[1]? = some Q := by
  cases m <;> rfl

/-- The last vertex appended by the `both active` loop is the `m`-th image of
`Q` under the advancing rotation `rj ∘ ri`. -/
theorem bothActiveLoop_getLast (ri rj : V → V) :
    ∀ (m : ℕ) (P Q : V),
      (bothActiveLoop ri rj (m + 1) P Q).getLast?
        = some ((fun v => rj (ri v))^[m] Q) := by
  intro m
  induction m with
  | zero => intro P Q; rfl
  | succ k ih =>
      intro P Q
      have hstep : bothActiveLoop ri rj (k + 1 + 1) P Q
          = P :: Q :: bothActiveLoop ri rj (k + 1) (rj (ri P)) (rj (ri Q)) := rfl
      rw [hstep, List.getLast?_cons_cons]
      have ih' := ih (rj (ri P)) (rj (ri Q))
      cases hb : bothActiveLoop ri rj (k + 1) (rj (ri P)) (rj (ri Q)) with
      | nil =>
          have hlen := bothActiveLoop_length ri rj (k + 1) (rj (ri P)) (rj (ri Q))
          rw [hb] at hlen
          simp at hlen
      | cons x xs =>
          rw [hb] at ih'
          rw [List.getLast?_cons_cons, ih']
          simp [Function.iterate_succ_apply]

/-- The second-to-last vertex appended by the `both active` loop (index
`2 * m` among the `2 * (m + 1)` vertices) is the `m`-th image of `P` under
the advancing rotation `rj ∘ ri`. -/
theorem bothActiveLoop_penultimate (ri rj : V → V) :
    ∀ (m : ℕ) (P Q : V),
      (bothActiveLoop ri rj (m + 1) P Q)[2 * m]?
        = some ((fun v => rj (ri v))^[m] P) := by
  intro m
  induction m with
  | zero => intro P Q; rfl
  | succ k ih =>
      intro P Q
      have hstep : bothActiveLoop ri rj (k + 1 + 1) P Q
          = P :: Q :: bothActiveLoop ri rj (k + 1) (rj (ri P)) (rj (ri Q)) := rfl
      have hidx : 2 * (k + 1) = 2 * k + 1 + 1 := by omega
      rw [hstep, hidx]
      simp only [List.getElem?_cons_succ]
      rw [ih (rj (ri P)) (rj (ri Q))]
      simp [Function.iterate_succ_apply]

/-- C2 (amended): for a pair `(i, j)` with both mirrors active and
`n = coxMatrix[i][j] ≥ 1`, the face built by `get_fundamental_faces` is the
`2n`-vertex list produced by the P/Q loop; its first vertex is `initPoint`
and its second vertex is `reflect_j(initPoint)`.  Assuming the dihedral
relation `(reflect_j ∘ reflect_i)^n = id`, the polygon closes as follows:
applying `reflect_i` then `reflect_j` to the LAST appended point returns the
SECOND point `reflect_j(initPoint)` (not the first), and applying
`reflect_i` then `reflect_j` to the second-to-last appended point returns
the first point. -/
theorem pair_face_both_active (cox : Matrix (Fin 3) (Fin 3) ℕ)
    (active : Fin 3 → Bool) (refl : Fin 3 → V → V) (v0 : V) (i j : Fin 3)
    (hi : active i = true) (hj : active j = true) (hn : 1 ≤ cox i j)
    (hrel : (fun v => refl j (refl i v))^[cox i j] = id) :
    pairFace cox active refl v0 i j
      = some (bothActiveLoop (refl i) (refl j) (cox i j) v0 (refl j v0))
  ∧ (bothActiveLoop (refl i) (refl j) (cox i j) v0 (refl j v0)).length
      = 2 * cox i j
  ∧ (bothActiveLoop (refl i) (refl j) (cox i j) v0 (refl j v0)).head? = some v0
  ∧ (bothActiveLoop (refl i) (refl j) (cox i j) v0 (refl j v0))[1]?
      = some (refl j v0)
  ∧ (bothActiveLoop (refl i) (refl j) (cox i j) v0 (refl j v0)).getLast?
      = some ((fun v => refl j (refl i v))^[cox i j - 1] (refl j v0))
  ∧ refl j (refl i ((fun v => refl j (refl i v))^[cox i j - 1] (refl j v0)))
      = refl j v0
  ∧ (bothActiveLoop (refl i) (refl j) (cox i j) v0 (refl j v0))[2 * cox i j - 2]?
      = some ((fun v => refl j (refl i v))^[cox i j - 1] v0)
  ∧ refl j (refl i ((fun v => refl j (refl i v))^[cox i j - 1] v0)) = v0 := by
  obtain ⟨m, hm⟩ : ∃ m, cox i j = m + 1 := ⟨cox i j - 1, by omega⟩
  have hclose : ∀ w : V,
      refl j (refl i ((fun v => refl j (refl i v))^[cox i j - 1] w)) = w := by
    intro w
    have h1 : refl j (refl i ((fun v => refl j (refl i v))^[m] w))
        = (fun v => refl j (refl i v))^[m + 1] w := by
      rw [Function.iterate_succ_apply']
    rw [hm]
    simp only [Nat.add_sub_cancel]
    rw [h1, ← hm, hrel]
    rfl
  refine ⟨?_, bothActiveLoop_length _ _ _ _ _, ?_, ?_, ?_, hclose _, ?_, hclose _⟩
  · simp [pairFace, hi, hj]
  · rw [hm]; rfl
  · rw [hm]; exact bothActiveLoop_second _ _ _ _ _
  · rw [hm]
    simp only [Nat.add_sub_cancel]
    exact bothActiveLoop_getLast _ _ _ _ _
  · rw [hm]
    have hidx : 2 * (m + 1) - 2 = 2 * m := by omega
    simp only [Nat.add_sub_cancel, hidx]
    exact bothActiveLoop_penultimate _ _ _ _ _

/-- Mirror row 0 of the `(2,4,4)` configuration is `(1, 0, 0)`. -/
theorem mirrors244_row0 : get_mirrors cox244 0 = ![1, 0, 0] := by
  funext k
  fin_cases k <;> simp [get_mirrors]

/-- Mirror row 1 of the `(2,4,4)` configuration is `(0, 1, 0)`: the entry
`C[1,0] = -cos(π/2) = 0` and `sqrt(1 - 0) = 1`. -/
theorem mirrors244_row1 : get_mirrors cox244 1 = ![0, 1, 0] := by
  have hC : coxC cox244 1 0 = 0 := by
    have h2 : (cox244 1 0 : ℝ) = 2 := by norm_num [cox244]
    simp [coxC, h2, Real.cos_pi_div_two]
  funext k
  fin_cases k <;> simp [get_mirrors, hC]

/-- The first reflection of the `244-111` instance, in coordinates. -/
theorem refl244_apply0 (v : V) : refl244 0 v = ![-v 0 - 2, v 1, v 2] := by
  funext k
  have h : get_reflections (get_mirrors cox244) ![1, 1, 1] 0 v k
      = v k - 2 * (dot3 v (get_mirrors cox244 0) + 1) * get_mirrors cox244 0 k := by
    simp [get_reflections, reflect]
  show get_reflections (get_mirrors cox244) ![1, 1, 1] 0 v k = _
  rw [h, mirrors244_row0]
  fin_cases k <;> simp [dot3]
  ring

/-- The second reflection of the `244-111` instance, in coordinates. -/
theorem refl244_apply1 (v : V) : refl244 1 v = ![v 0, -v 1 - 2, v 2] := by
  funext k
  have h : get_reflections (get_mirrors cox244) ![1, 1, 1] 1 v k
      = v k - 2 * (dot3 v (get_mirrors cox244 1) + 1) * get_mirrors cox244 1 k := by
    simp [get_reflections, reflect]
  show get_reflections (get_mirrors cox244) ![1, 1, 1] 1 v k = _
  rw [h, mirrors244_row1]
  fin_cases k <;> simp [dot3]
  ring

/-- The rotation `refl244 1 ∘ refl244 0` of the `(2,4,4)` instance satisfies
the dihedral relation of order `cox244 0 1 = 2`. -/
theorem refl244_rotation_order2 :
    (fun v => refl244 1 (refl244 0 v))^[cox244 0 1] = id := by
  have hc : cox244 0 1 = 2 := by norm_num [cox244]
  rw [hc]
  funext v
  show refl244 1 (refl244 0 (refl244 1 (refl244 0 v))) = v
  rw [refl244_apply0 v, refl244_apply1, refl244_apply0, refl244_apply1]
  funext k
  fin_cases k <;> simp

/-- Witness for the amended C2 theorem: the `(2,4,4)` configuration with all
three mirrors active, pair `(0,1)` of order `2`, satisfies the hypotheses,
and the built face has `2 * 2 = 4` vertices. -/
theorem pair_face_both_active_witness :
    ((fun v => refl244 1 (refl244 0 v))^[cox244 0 1] = id)
  ∧ 1 ≤ cox244 0 1
  ∧ (bothActiveLoop (refl244 0) (refl244 1) (cox244 0 1) ![1, 1, 1]
      (refl244 1 ![1, 1, 1])).length = 2 * cox244 0 1 := by
  have hn : 1 ≤ cox244 0 1 := by norm_num [cox244]
  exact ⟨refl244_rotation_order2, hn,
    (pair_face_both_active cox244 (fun _ => true) refl244 ![1, 1, 1] 0 1
      rfl rfl hn refl244_rotation_order2).2.1⟩

/-- C2 counterexample: in the `(2,4,4)` tiling with `init_dist = (1,1,1)`
(all mirrors active) and start point `(1,1,1)` — which lies at the prescribed
signed distance `1` from both mirrors of the pair — the face built for the
pair `(0,1)` is the square `[(1,1,1), (1,-3,1), (-3,-3,1), (-3,1,1)]`.
Applying `reflect_0` then `reflect_1` to the last appended point `(-3,1,1)`
yields `(1,-3,1)`, the SECOND vertex, which differs from the first vertex
`(1,1,1)`: the claimed closure property is false.  (The same value results
if the two reflections are applied in the other order.) -/
theorem face_closure_counterexample :
    pairFace cox244 (fun _ => true) refl244 ![1, 1, 1] 0 1
      = some [![1, 1, 1], ![1, -3, 1], ![-3, -3, 1], ![-3, 1, 1]]
  ∧ refl244 1 (refl244 0 ![-3, 1, 1]) = ![1, -3, 1]
  ∧ refl244 0 (refl244 1 ![-3, 1, 1]) = ![1, -3, 1]
  ∧ (![1, -3, 1] : V) ≠ ![1, 1, 1]
  ∧ dot3 ![1, 1, 1] (get_mirrors cox244 0) = 1
  ∧ dot3 ![1, 1, 1] (get_mirrors cox244 1) = 1 := by
  have e0 : refl244 0 ![1, 1, 1] = ![-3, 1, 1] := by
    rw [refl244_apply0]
    funext k
    fin_cases k <;> norm_num
  have e1 : refl244 1 ![1, 1, 1] = ![1, -3, 1] := by
    rw [refl244_apply1]
    funext k
    fin_cases k <;> norm_num
  have e2 : refl244 1 ![-3, 1, 1] = ![-3, -3, 1] := by
    rw [refl244_apply1]
    funext k
    fin_cases k <;> norm_num
  have e3 : refl244 0 ![1, -3, 1] = ![-3, -3, 1] := by
    rw [refl244_apply0]
    funext k
    fin_cases k <;> norm_num
  have e4 : refl244 1 ![-3, -3, 1] = ![-3, 1, 1] := by
    rw [refl244_apply1]
    funext k
    fin_cases k <;> norm_num
  have e5 : refl244 0 ![-3, 1, 1] = ![1, 1, 1] := by
    rw [refl244_apply0]
    funext k
    fin_cases k <;> norm_num
  have e6 : refl244 0 ![-3, -3, 1] = ![1, -3, 1] := by
    rw [refl244_apply0]
    funext k
    fin_cases k <;> norm_num
  have hc : cox244 0 1 = 2 := by norm_num [cox244]
  refine ⟨?_, ?_, ?_, ?_, ?_, ?_⟩
  · have hface : bothActiveLoop (refl244 0) (refl244 1) 2 ![1, 1, 1]
        (refl244 1 ![1, 1, 1])
        = [![1, 1, 1], ![1, -3, 1], ![-3, -3, 1], ![-3, 1, 1]] := by
      show [(![1, 1, 1] : V), refl244 1 ![1, 1, 1],
        refl244 1 (refl244 0 ![1, 1, 1]),
        refl244 1 (refl244 0 (refl244 1 ![1, 1, 1]))] = _
      rw [e1, e0, e2, e3, e4]
    simp only [pairFace, Bool.and_self, if_pos, hc, hface]
  · rw [e5, e1]
  · rw [e2, e6]
  · intro h
    have h1 := congrFun h 1
    norm_num at h1
  · rw [mirrors244_row0]
    simp [dot3]
  · rw [mirrors244_row1]
    simp [dot3]

/-- Each successor enqueued from `r` is one step deeper than `r`. -/
theorem childRecs_steps {σ : Type} (A : WordDFA σ) (refl : Fin 3 → V → V)
    (r c : TRec σ) (hc : c ∈ childRecs A refl r) : c.steps = r.steps + 1 := by
  simp only [childRecs, List.mem_map] at hc
  obtain ⟨p, _hp, rfl⟩ := hc
  rfl

/-- Shape, word and step count of an enqueued successor, relative to its
parent record. -/
theorem childRecs_spec {σ : Type} (A : WordDFA σ) (refl : Fin 3 → V → V)
    (r c : TRec σ) (hc : c ∈ childRecs A refl r) :
    ∃ a : Fin 3, c.word = r.word ++ [a] ∧ c.steps = r.steps + 1
      ∧ c.shape = r.shape.map (refl a) := by
  simp only [childRecs, List.mem_map] at hc
  obtain ⟨p, _hp, rfl⟩ := hc
  exact ⟨p.1, rfl, rfl, rfl⟩

/-- Extending a word by one symbol composes one more pointwise reflection
onto the transformed polygon. -/
theorem applyWord_append (refl : Fin 3 → V → V) (w : List (Fin 3)) (a : Fin 3)
    (s : List V) :
    applyWord refl (w ++ [a]) s = (applyWord refl w s).map (refl a) := by
  simp [applyWord, List.foldl_append]

/-- BFS invariant: a predicate that holds on the whole queue and is preserved
from a dequeued record to each of its enqueued successors (successors are
created only under the depth guard) holds of every yielded record. -/
theorem traverseBFS_forall {σ : Type} (A : WordDFA σ) (refl : Fin 3 → V → V)
    (depth : ℕ) (p : TRec σ → Prop)
    (hstep : ∀ r c, p r → r.steps < depth → c ∈ childRecs A refl r → p c)
    (q : List (TRec σ)) :
    (∀ r ∈ q, p r) → ∀ x ∈ traverseBFS A refl depth q, p x := by
  induction q using traverseBFS.induct A refl depth with
  | case1 =>
      intro _ x hx
      simp [traverseBFS] at hx
  | case2 r q ih =>
      intro hq x hx
      rw [traverseBFS] at hx
      by_cases hlt : r.steps < depth
      · rw [if_pos hlt] at hx
        rw [dif_pos hlt] at ih
        rcases List.mem_cons.mp hx with rfl | hx'
        · exact hq _ (List.mem_cons_self _ _)
        · refine ih ?_ x hx'
          intro y hy
          rcases List.mem_append.mp hy with hy1 | hy2
          · exact hq y (List.mem_cons_of_mem r hy1)
          · exact hstep r y (hq r (List.mem_cons_self r q)) hlt hy2
      · rw [if_neg hlt] at hx
        rw [dif_neg hlt] at ih
        rcases List.mem_cons.mp hx with rfl | hx'
        · exact hq _ (List.mem_cons_self _ _)
        · refine ih ?_ x hx'
          intro y hy
          rcases List.mem_append.mp hy with hy1 | hy2
          · exact hq y (List.mem_cons_of_mem r hy1)
          · simp at hy2

/-- Yielded records are never shallower than the shallowest queue entry. -/
theorem traverseBFS_steps_lb {σ : Type} (A : WordDFA σ) (refl : Fin 3 → V → V)
    (depth m : ℕ) (q : List (TRec σ)) (hq : ∀ r ∈ q, m ≤ r.steps) :
    ∀ x ∈ traverseBFS A refl depth q, m ≤ x.steps := by
  refine traverseBFS_forall A refl depth (fun r => m ≤ r.steps) ?_ q hq
  intro r c hr _hlt hc
  rw [childRecs_steps A refl r c hc]
  omega

/-- A list of records all at the same depth satisfies the two-level queue
invariant. -/
theorem pairwise_of_const_steps {σ : Type} (l : List (TRec σ)) (s : ℕ)
    (h : ∀ c ∈ l, c.steps = s) :
    List.Pairwise (fun a b : TRec σ => a.steps ≤ b.steps ∧ b.steps ≤ a.steps + 1) l := by
  induction l with
  | nil => exact List.Pairwise.nil
  | cons x xs ih =>
      refine List.pairwise_cons.mpr ⟨?_, ih fun c hc => h c (List.mem_cons_of_mem _ hc)⟩
      intro b hb
      rw [h x (List.mem_cons_self _ _), h b (List.mem_cons_of_mem _ hb)]
      omega

/-- FIFO breadth-first yield order: if the queue is sorted by step count and
spans at most two consecutive levels (which holds of the initial one-record
queue and is preserved by the loop), the yielded sequence is sorted by step
count. -/
theorem traverseBFS_sorted {σ : Type} (A : WordDFA σ) (refl : Fin 3 → V → V)
    (depth : ℕ) (q : List (TRec σ)) :
    List.Pairwise (fun a b : TRec σ => a.steps ≤ b.steps ∧ b.steps ≤ a.steps + 1) q →
    List.Pairwise (fun a b : TRec σ => a.steps ≤ b.steps)
      (traverseBFS A refl depth q) := by
  induction q using traverseBFS.induct A refl depth with
  | case1 =>
      intro _
      simp [traverseBFS]
  | case2 r q ih =>
      intro hq
      rcases List.pairwise_cons.mp hq with ⟨hr, hq'⟩
      rw [traverseBFS]
      by_cases hlt : r.steps < depth
      · rw [if_pos hlt]
        rw [dif_pos hlt] at ih
        have hcs : ∀ c ∈ childRecs A refl r, c.steps = r.steps + 1 :=
          fun c hc => childRecs_steps A refl r c hc
        refine List.pairwise_cons.mpr ⟨?_, ?_⟩
        · refine traverseBFS_steps_lb A refl depth r.steps _ ?_
          intro y hy
          rcases List.mem_append.mp hy with hy1 | hy2
          · exact (hr y hy1).1
          · rw [hcs y hy2]; omega
        · refine ih (List.pairwise_append.mpr ⟨hq', ?_, ?_⟩)
          · exact pairwise_of_const_steps _ (r.steps + 1) hcs
          · intro a ha b hb
            have hab := hr a ha
            rw [hcs b hb]
            omega
      · rw [if_neg hlt]
        rw [dif_neg hlt] at ih
        refine List.pairwise_cons.mpr ⟨?_, ?_⟩
        · rw [List.append_nil]
          refine traverseBFS_steps_lb A refl depth r.steps _ ?_
          intro y hy
          exact (hr y hy).1
        · rw [List.append_nil] at *
          exact ih hq'

/-- C3: `traverse` yields a finite sequence of records whose first element is
`(startState, emptyWord, 0, seedFace)`; every yielded record has
`steps ≤ depth` (successors being enqueued only under the guard
`steps < depth`); the FIFO queue discipline yields records in breadth-first
order (step counts are non-decreasing along the yielded sequence); and at
depth `0` exactly one record is yielded — the seed face, unchanged. -/
theorem traverse_bfs_spec {σ : Type} (A : WordDFA σ) (refl : Fin 3 → V → V)
    (depth : ℕ) (seed : List V) :
    (EuclideanUniformTiling.traverse A refl depth seed).head? = some ⟨A.start, [], 0, seed⟩
  ∧ (EuclideanUniformTiling.traverse A refl depth seed).Forall (fun r => r.steps ≤ depth)
  ∧ List.Pairwise (fun a b : TRec σ => a.steps ≤ b.steps)
      (EuclideanUniformTiling.traverse A refl depth seed)
  ∧ EuclideanUniformTiling.traverse A refl 0 seed = [⟨A.start, [], 0, seed⟩] := by
  refine ⟨?_, ?_, ?_, ?_⟩
  · rw [EuclideanUniformTiling.traverse, traverseBFS]
    rfl
  · rw [List.forall_iff_forall_mem]
    intro x hx
    rw [EuclideanUniformTiling.traverse] at hx
    refine traverseBFS_forall A refl depth (fun r => r.steps ≤ depth) ?_ _ ?_ x hx
    · intro r c _hr hlt hc
      rw [childRecs_steps A refl r c hc]
      omega
    · intro r hr
      simp only [List.mem_singleton] at hr
      subst hr
      exact Nat.zero_le depth
  · rw [EuclideanUniformTiling.traverse]
    exact traverseBFS_sorted A refl depth _ (List.pairwise_singleton _ _)
  · rw [EuclideanUniformTiling.traverse, traverseBFS]
    simp [traverseBFS]

/-- C10: every record yielded by `traverse` has a word whose length equals
its step count, and its polygon is exactly the seed face transformed, symbol
by symbol in word order, by the corresponding reflection operators. -/
theorem traverse_word_invariant {σ : Type} (A : WordDFA σ) (refl : Fin 3 → V → V)
    (depth : ℕ) (seed : List V) :
    (EuclideanUniformTiling.traverse A refl depth seed).Forall
      (fun r => r.word.length = r.steps ∧ r.shape = applyWord refl r.word seed) := by
  rw [List.forall_iff_forall_mem]
  intro x hx
  rw [EuclideanUniformTiling.traverse] at hx
  refine traverseBFS_forall A refl depth
    (fun r => r.word.length = r.steps ∧ r.shape = applyWord refl r.word seed)
    ?_ _ ?_ x hx
  · intro r c hr hlt hc
    obtain ⟨a, hw, hs, hsh⟩ := childRecs_spec A refl r c hc
    constructor
    · rw [hw, hs, List.length_append, hr.1]
      rfl
    · rw [hsh, hw, applyWord_append, hr.2]
  · intro r hr
    simp only [List.mem_singleton] at hr
    subst hr
    exact ⟨rfl, rfl⟩
